import Mathlib

/-!
Verification of the BTC input/output mapper's combinatorial core.

Shallow embedding of the C++ sources under `src/`:
* `transaction_data.h`  — `TransactionData` (amounts embedded as exact
  rationals `ℚ`; the C++ stores `double`),
* `subset_generator.h`  — `generate_subsets`, `calculate_subset_value`,
* `subset_analyzer.h`   — `find_valid_combinations`,
* `bell_number.h`       — `compute_bell_number` (Bell triangle),
* `partition_analyzer.h` — `ElementMapper`, `PartitionGenerator`,
  `could_have_valid_mapping`, `is_valid_mapping`, `check_all_permutations`,
  `format_mapping_for_csv`.
-/

/-- An `IndexSet` is a block of element indices (C++ `std::vector<ElementIndex>`;
indices are modelled as `ℕ`). -/
abbrev IndexSet := List ℕ

/-- An `IndexPartition` is an ordered list of blocks. -/
abbrev IndexPartition := List IndexSet

/-- Embedding of `TransactionData` (`transaction_data.h`).  The C++
`std::unordered_map<std::string,double>` is embedded as an association list
(iteration order is irrelevant to the program: the map is only used for
lookups and for summing all entries); amounts are embedded as `ℚ`. -/
structure TransactionData where
  inputs : List (String × ℚ) := []
  outputs : List (String × ℚ) := []
  input_ids : List String := []
  output_ids : List String := []
deriving DecidableEq

/-- `m[id] = v` on an association list: overwrite the entry if the key is
present, otherwise insert a new entry (C++ `operator[]` followed by
assignment). -/
def assocSet (m : List (String × ℚ)) (id : String) (v : ℚ) : List (String × ℚ) :=
  if m.any (fun p => p.1 = id) then
    m.map (fun p => if p.1 = id then (id, v) else p)
  else
    m ++ [(id, v)]

/-- `TransactionData::add_input`: `inputs[id] = value; input_ids.push_back(id);`
(no validation of any kind is performed by the source). -/
def TransactionData.add_input (td : TransactionData) (id : String) (value : ℚ) :
    TransactionData :=
  { td with inputs := assocSet td.inputs id value,
            input_ids := td.input_ids ++ [id] }

/-- `TransactionData::add_output`. -/
def TransactionData.add_output (td : TransactionData) (id : String) (value : ℚ) :
    TransactionData :=
  { td with outputs := assocSet td.outputs id value,
            output_ids := td.output_ids ++ [id] }

/-- `TransactionData::get_input_value`: map lookup, `0` when the id is absent. -/
def TransactionData.get_input_value (td : TransactionData) (id : String) : ℚ :=
  (td.inputs.lookup id).getD 0

/-- `TransactionData::get_output_value`. -/
def TransactionData.get_output_value (td : TransactionData) (id : String) : ℚ :=
  (td.outputs.lookup id).getD 0

/-- `TransactionData::total_input_value`: sum of all map entries. -/
def TransactionData.total_input_value (td : TransactionData) : ℚ :=
  (td.inputs.map Prod.snd).sum

/-- `TransactionData::total_output_value`. -/
def TransactionData.total_output_value (td : TransactionData) : ℚ :=
  (td.outputs.map Prod.snd).sum

/-- `TransactionData::get_fee`. -/
def TransactionData.get_fee (td : TransactionData) : ℚ :=
  td.total_input_value - td.total_output_value

/-- `SubsetType` (`subset_generator.h`). -/
inductive SubsetType where
  | INPUTS
  | OUTPUTS
deriving DecidableEq

/-- `calculate_subset_value` (`subset_generator.h`): sum the values of the ids
in a subset, on the side selected by `type`. -/
def calculate_subset_value (td : TransactionData) (subset : List String)
    (type : SubsetType) : ℚ :=
  (subset.map (fun id =>
    match type with
    | SubsetType.INPUTS => td.get_input_value id
    | SubsetType.OUTPUTS => td.get_output_value id)).sum

/-- Embedding of `ElementMapper` (`partition_analyzer.h`): the ordered id list.
(The reverse map `element_to_index` is not consulted by any verified claim.) -/
structure ElementMapper where
  elements : List String

/-- `ElementMapper::to_string_set`: `elements[idx]` for each index (out-of-range
access, undefined behaviour in C++, is embedded as the default `""`). -/
def ElementMapper.to_string_set (m : ElementMapper) (indices : IndexSet) :
    List String :=
  indices.map (fun idx => m.elements.getD idx "")

/-- `ElementMapper::to_string_partition`. -/
def ElementMapper.to_string_partition (m : ElementMapper) (partition : IndexPartition) :
    List (List String) :=
  partition.map m.to_string_set

/-- `std::sort(v.begin(), v.end(), std::greater<>())`: sort descending. -/
def sortDesc (l : List ℚ) : List ℚ := l.insertionSort (· ≥ ·)

/-- Value of one input block, as computed inside `could_have_valid_mapping`
and `is_valid_mapping`. -/
def inputGroupValue (td : TransactionData) (im : ElementMapper) (g : IndexSet) : ℚ :=
  calculate_subset_value td (im.to_string_set g) SubsetType.INPUTS

/-- Value of one output block. -/
def outputGroupValue (td : TransactionData) (om : ElementMapper) (g : IndexSet) : ℚ :=
  calculate_subset_value td (om.to_string_set g) SubsetType.OUTPUTS

/-- `could_have_valid_mapping` (`partition_analyzer.h`, the pruner):
reject on block-count mismatch; otherwise sort the two block-value lists
descending and reject iff some output value exceeds the input value at the
same sorted position. -/
def could_have_valid_mapping (td : TransactionData)
    (input_partition output_partition : IndexPartition)
    (input_mapper output_mapper : ElementMapper) : Bool :=
  if input_partition.length ≠ output_partition.length then false
  else
    let input_values := sortDesc (input_partition.map (inputGroupValue td input_mapper))
    let output_values := sortDesc (output_partition.map (outputGroupValue td output_mapper))
    (List.range output_values.length).all (fun i =>
      decide (output_values.getD i 0 ≤ input_values.getD i 0))

/-- `is_valid_mapping` (`partition_analyzer.h`): position `i` of the output
partition is matched with position `i` of the input partition; valid iff
every output block value is at most its input block value. -/
def is_valid_mapping (td : TransactionData)
    (input_partition output_partition : IndexPartition)
    (input_mapper output_mapper : ElementMapper) : Bool :=
  if input_partition.length ≠ output_partition.length then false
  else
    (List.range input_partition.length).all (fun i =>
      decide (outputGroupValue td output_mapper (output_partition.getD i []) ≤
              inputGroupValue td input_mapper (input_partition.getD i [])))

/-- `permuted_output[i] = output_partition[indices[i]]`
(the loop in `check_all_permutations`). -/
def applyPerm (indices : List ℕ) (output_partition : IndexPartition) : IndexPartition :=
  indices.map (fun j => output_partition.getD j [])

/-! ### Sorted-dominance lemmas for the pruner (claim C2) -/

/-- Pointwise domination cannot decrease the number of entries `≥ t`. -/
theorem countP_le_of_forall₂_le (t : ℚ) :
    ∀ {l₁ l₂ : List ℚ}, List.Forall₂ (· ≤ ·) l₁ l₂ →
      l₁.countP (fun x => decide (t ≤ x)) ≤ l₂.countP (fun x => decide (t ≤ x)) := by
  intro l₁ l₂ h
  induction h with
  | nil => simp
  | @cons a b la lb hab htail ih =>
    rw [List.countP_cons, List.countP_cons]
    by_cases hta : t ≤ a
    · have h1 : decide (t ≤ a) = true := decide_eq_true hta
      have h2 : decide (t ≤ b) = true := decide_eq_true (le_trans hta hab)
      simp only [h1, h2]
      simp
      omega
    · have h1 : decide (t ≤ a) = false := decide_eq_false hta
      simp only [h1]
      have hb : (if decide (t ≤ b) = true then 1 else 0) ≤ 1 := by
        split <;> omega
      simp
      omega

/-- In a descending-sorted list, at least `i + 1` entries are `≥` the entry at
position `i`. -/
theorem succ_le_countP_of_sorted_desc :
    ∀ (l : List ℚ), List.Sorted (· ≥ ·) l → ∀ (i : ℕ) (h : i < l.length),
      i + 1 ≤ l.countP (fun x => decide (l.get ⟨i, h⟩ ≤ x))
  | [], _, i, h => by simp at h
  | a :: tl, hs, i, h => by
    rw [List.sorted_cons] at hs
    cases i with
    | zero =>
      have hget : (a :: tl).get ⟨0, h⟩ = a := rfl
      rw [hget, List.countP_cons]
      have h1 : decide (a ≤ a) = true := decide_eq_true le_rfl
      simp only [h1]
      simp
    | succ i =>
      have htl : i < tl.length := by
        have := h
        simp only [List.length_cons] at this
        omega
      have hmem : tl.get ⟨i, htl⟩ ∈ tl := List.get_mem tl i htl
      have ha : tl.get ⟨i, htl⟩ ≤ a := hs.1 _ hmem
      have ih := succ_le_countP_of_sorted_desc tl hs.2 i htl
      have hget : (a :: tl).get ⟨i + 1, h⟩ = tl.get ⟨i, htl⟩ := rfl
      rw [hget, List.countP_cons]
      have h1 : decide (tl.get ⟨i, htl⟩ ≤ a) = true := decide_eq_true ha
      simp only [h1, if_pos]
      omega

/-- In a descending-sorted list, if at least `i + 1` entries are `≥ t` then the
entry at position `i` is `≥ t`. -/
theorem le_get_of_countP_sorted_desc :
    ∀ (l : List ℚ), List.Sorted (· ≥ ·) l → ∀ (t : ℚ) (i : ℕ) (h : i < l.length),
      i + 1 ≤ l.countP (fun x => decide (t ≤ x)) → t ≤ l.get ⟨i, h⟩
  | [], _, t, i, h => by simp at h
  | a :: tl, hs, t, i, h => by
    rw [List.sorted_cons] at hs
    cases i with
    | zero =>
      intro hc
      simp only [List.get]
      by_contra hta
      push_neg at hta
      have hzero : (a :: tl).countP (fun x => decide (t ≤ x)) = 0 := by
        rw [List.countP_eq_zero]
        intro x hx
        rcases List.mem_cons.mp hx with rfl | hx
        · simpa using not_le.mpr hta
        · have : x ≤ a := hs.1 x hx
          simpa using not_le.mpr (lt_of_le_of_lt this hta)
      omega
    | succ i =>
      intro hc
      have htl : i < tl.length := by simpa using h
      rw [List.countP_cons] at hc
      have hc' : i + 1 ≤ tl.countP (fun x => decide (t ≤ x)) := by
        by_cases hta : t ≤ a <;> simp [hta] at hc <;> omega
      exact le_get_of_countP_sorted_desc tl hs.2 t i htl hc'

/-- `sortDesc` sorts descending. -/
theorem sortDesc_sorted (l : List ℚ) : List.Sorted (· ≥ ·) (sortDesc l) :=
  List.sorted_insertionSort (· ≥ ·) l

/-- `sortDesc` permutes its argument. -/
theorem sortDesc_perm (l : List ℚ) : (sortDesc l).Perm l :=
  List.perm_insertionSort (· ≥ ·) l

/-- Core rearrangement fact behind pruner soundness: if some reordering `l₁'`
of `l₁` is pointwise dominated by `l₂`, then the descending sort of `l₁` is
pointwise dominated by the descending sort of `l₂`. -/
theorem sortDesc_dominance {l₁ l₁' l₂ : List ℚ}
    (hperm : l₁'.Perm l₁) (hf : List.Forall₂ (· ≤ ·) l₁' l₂)
    (i : ℕ) (h₁ : i < (sortDesc l₁).length) (h₂ : i < (sortDesc l₂).length) :
    (sortDesc l₁).get ⟨i, h₁⟩ ≤ (sortDesc l₂).get ⟨i, h₂⟩ := by
  set t := (sortDesc l₁).get ⟨i, h₁⟩ with ht
  have step1 : i + 1 ≤ (sortDesc l₁).countP (fun x => decide (t ≤ x)) :=
    succ_le_countP_of_sorted_desc (sortDesc l₁) (sortDesc_sorted l₁) i h₁
  have step2 : (sortDesc l₁).countP (fun x => decide (t ≤ x)) =
      l₁'.countP (fun x => decide (t ≤ x)) :=
    ((sortDesc_perm l₁).trans hperm.symm).countP_eq _
  have step3 : l₁'.countP (fun x => decide (t ≤ x)) ≤
      l₂.countP (fun x => decide (t ≤ x)) :=
    countP_le_of_forall₂_le t hf
  have step4 : l₂.countP (fun x => decide (t ≤ x)) =
      (sortDesc l₂).countP (fun x => decide (t ≤ x)) :=
    ((sortDesc_perm l₂).countP_eq _).symm
  exact le_get_of_countP_sorted_desc (sortDesc l₂) (sortDesc_sorted l₂) t i h₂
    (by omega)

/-- Reading off a whole list through `getD` over `range` reproduces the list. -/
theorem range_map_getD {α : Type} (d : α) :
    ∀ (l : List α), (List.range l.length).map (fun i => l.getD i d) = l
  | [] => by simp
  | a :: tl => by
    rw [List.length_cons, List.range_succ_eq_map, List.map_cons, List.map_map,
      List.getD_cons_zero]
    have hcong : ∀ i ∈ List.range tl.length,
        ((fun i => (a :: tl).getD i d) ∘ Nat.succ) i = (fun i => tl.getD i d) i := by
      intro i _
      simp [Function.comp, List.getD_cons_succ]
    rw [List.map_congr_left hcong, range_map_getD d tl]

/-- Composite version of `range_map_getD` under a further `map`. -/
theorem map_range_getD {α β : Type} (f : α → β) (d : α) (l : List α) :
    (List.range l.length).map (fun i => f (l.getD i d)) = l.map f := by
  have h := congrArg (List.map f) (range_map_getD d l)
  rw [List.map_map] at h
  exact h

/-- C2: Pruner soundness. For every input and output partition with equal block
count `k`, if `could_have_valid_mapping` returns `false`, then no permutation
of the `k` output blocks makes `is_valid_mapping` return `true`: whenever the
descending-sorted output block sums exceed the descending-sorted input block
sums at some position, every bijection of blocks pairs some output block with a
strictly smaller input block. -/
theorem pruner_soundness (td : TransactionData) (im om : ElementMapper)
    (ip op : IndexPartition)
    (hlen : ip.length = op.length)
    (hpr : could_have_valid_mapping td ip op im om = false)
    (p : List ℕ) (hp : p.Perm (List.range op.length)) :
    is_valid_mapping td ip (applyPerm p op) im om = false := by
  by_contra hv'
  have hv : is_valid_mapping td ip (applyPerm p op) im om = true := by
    cases hb : is_valid_mapping td ip (applyPerm p op) im om
    · exact absurd hb hv'
    · rfl
  clear hv'
  have plen : p.length = op.length := by
    have := hp.length_eq
    simpa using this
  have hap : (applyPerm p op).length = op.length := by
    simp [applyPerm, plen]
  rw [is_valid_mapping,
    if_neg (show ¬ ip.length ≠ (applyPerm p op).length from
      fun hne => hne (by rw [hap]; exact hlen))] at hv
  have hpt : ∀ i, i < ip.length →
      outputGroupValue td om ((applyPerm p op).getD i []) ≤
        inputGroupValue td im (ip.getD i []) := by
    intro i hi
    exact of_decide_eq_true (List.all_eq_true.mp hv i (List.mem_range.mpr hi))
  have hPVperm : (p.map (fun j => outputGroupValue td om (op.getD j []))).Perm
      (op.map (outputGroupValue td om)) := by
    have h2 := hp.map (fun j => outputGroupValue td om (op.getD j []))
    rwa [map_range_getD (outputGroupValue td om) [] op] at h2
  have hF : List.Forall₂ (· ≤ ·)
      (p.map (fun j => outputGroupValue td om (op.getD j [])))
      (ip.map (inputGroupValue td im)) := by
    rw [List.forall₂_iff_get]
    constructor
    · simp
      omega
    · intro i h₁ h₂
      rw [List.get_map, List.get_map]
      have hip : i < ip.length := by simpa using h₂
      have hplen : i < p.length := by simpa using h₁
      have key := hpt i hip
      have happ : (applyPerm p op).getD i [] = op.getD (p.get ⟨i, hplen⟩) [] := by
        rw [applyPerm, List.getD_eq_get _ [] (by simpa using hplen), List.get_map]
      rw [happ, List.getD_eq_get ip [] hip] at key
      exact key
  rw [could_have_valid_mapping, if_neg (fun hne => hne hlen)] at hpr
  simp only [] at hpr
  obtain ⟨i, hi_mem, hviol⟩ := List.all_eq_false.mp hpr
  have hiO : i < (sortDesc (op.map (outputGroupValue td om))).length := by
    simpa using List.mem_range.mp hi_mem
  have hiI : i < (sortDesc (ip.map (inputGroupValue td im))).length := by
    have hl1 : (sortDesc (ip.map (inputGroupValue td im))).length = ip.length := by
      simp [sortDesc]
    have hl2 : (sortDesc (op.map (outputGroupValue td om))).length = op.length := by
      simp [sortDesc]
    omega
  have hdom := sortDesc_dominance hPVperm hF i hiO hiI
  rw [List.getD_eq_get _ 0 hiO, List.getD_eq_get _ 0 hiI] at hviol
  exact hviol (decide_eq_true hdom)

/-- Witness for `pruner_soundness`: inputs `{i0 ↦ 3}`, outputs `{o0 ↦ 5}`,
singleton partitions, identity permutation. -/
theorem pruner_soundness_witness :
    could_have_valid_mapping ⟨[("i0", 3)], [("o0", 5)], ["i0"], ["o0"]⟩
      [[0]] [[0]] ⟨["i0"]⟩ ⟨["o0"]⟩ = false ∧
    is_valid_mapping ⟨[("i0", 3)], [("o0", 5)], ["i0"], ["o0"]⟩
      [[0]] (applyPerm [0] [[0]]) ⟨["i0"]⟩ ⟨["o0"]⟩ = false := by
  have hpr : could_have_valid_mapping ⟨[("i0", 3)], [("o0", 5)], ["i0"], ["o0"]⟩
      [[0]] [[0]] ⟨["i0"]⟩ ⟨["o0"]⟩ = false := by
    norm_num [could_have_valid_mapping, sortDesc, outputGroupValue, inputGroupValue,
      calculate_subset_value, TransactionData.get_output_value,
      TransactionData.get_input_value, ElementMapper.to_string_set,
      List.insertionSort, List.orderedInsert, List.lookup]
  exact ⟨hpr,
    pruner_soundness ⟨[("i0", 3)], [("o0", 5)], ["i0"], ["o0"]⟩ ⟨["i0"]⟩ ⟨["o0"]⟩
      [[0]] [[0]] rfl hpr [0] (by decide)⟩

/-! ### Bell numbers: the generator constructor's binomial recurrence versus
the Bell triangle of `bell_number.h` (claim C5) -/

/-- `PartitionGenerator::binomial_coefficient` (`partition_analyzer.h`): the
multiplicative loop `result *= (n - (k - i)); result /= i;` for `i = 1..k`,
with integer (floor) division, embedded exactly. -/
def binomial_coefficient (n k : ℕ) : ℕ :=
  if k > n then 0
  else if k = 0 ∨ k = n then 1
  else (List.range' 1 k).foldl (fun result i => result * (n - (k - i)) / i) 1

/-- Loop invariant of the binomial loop: after processing `i = 1..j` the
accumulator holds `C(n - k + j, j)` (each division is exact). -/
theorem binomial_loop_eq (n k : ℕ) (hkn : k ≤ n) :
    ∀ j, j ≤ k → (List.range' 1 j).foldl (fun result i => result * (n - (k - i)) / i) 1
      = Nat.choose (n - k + j) j
  | 0, _ => by simp
  | j + 1, hj => by
    rw [List.range'_concat, List.foldl_concat, binomial_loop_eq n k hkn j (by omega)]
    have h1 : (1 : ℕ) + 1 * j = j + 1 := by ring
    rw [h1]
    have h2 : n - (k - (j + 1)) = n - k + j + 1 := by omega
    rw [h2]
    have key := Nat.succ_mul_choose_eq (n - k + j) j
    rw [Nat.succ_eq_add_one] at key
    rw [mul_comm, key, Nat.mul_div_cancel _ (Nat.succ_pos j)]
    congr 1

/-- The loop implementation agrees with `Nat.choose` everywhere. -/
theorem binomial_coefficient_eq_choose (n k : ℕ) :
    binomial_coefficient n k = Nat.choose n k := by
  unfold binomial_coefficient
  by_cases hkn : k > n
  · rw [if_pos hkn, Nat.choose_eq_zero_of_lt hkn]
  · rw [if_neg hkn]
    by_cases hke : k = 0 ∨ k = n
    · rw [if_pos hke]
      rcases hke with rfl | rfl
      · rw [Nat.choose_zero_right]
      · rw [Nat.choose_self]
    · rw [if_neg hke]
      have hkn' : k ≤ n := by omega
      rw [binomial_loop_eq n k hkn' k le_rfl, Nat.sub_add_cancel hkn']

/-- The Bell number array filled by the `PartitionGenerator` constructor:
`bell_numbers[0] = 1`, and
`bell_numbers[i] = Σ_{j<i} bell_numbers[j] * binomial_coefficient(i-1, j)`.
`bellVals n` is the array `bell_numbers[0..n]`. -/
def bellVals : ℕ → List ℕ
  | 0 => [1]
  | i + 1 =>
    bellVals i ++
      [∑ j ∈ Finset.range (i + 1), (bellVals i).getD j 0 * binomial_coefficient i j]

/-- `max_partitions` as computed by the `PartitionGenerator` constructor for a
set of size `n`: the last entry of the filled array. -/
def bellRec (n : ℕ) : ℕ := (bellVals n).getD n 0

theorem bellVals_length : ∀ n, (bellVals n).length = n + 1
  | 0 => rfl
  | n + 1 => by simp [bellVals, bellVals_length n]

theorem bellVals_getD_stable (i j : ℕ) (hj : j ≤ i) :
    (bellVals (i + 1)).getD j 0 = (bellVals i).getD j 0 := by
  rw [bellVals]
  exact List.getD_append _ _ 0 j (by rw [bellVals_length]; omega)

theorem bellVals_getD_eq_bellRec : ∀ i j, j ≤ i → (bellVals i).getD j 0 = bellRec j := by
  intro i
  induction i with
  | zero =>
    intro j hj
    have : j = 0 := by omega
    subst this
    rfl
  | succ i ih =>
    intro j hj
    by_cases hji : j ≤ i
    · rw [bellVals_getD_stable i j hji]
      exact ih j hji
    · have : j = i + 1 := by omega
      subst this
      rfl

theorem bellRec_succ (i : ℕ) :
    bellRec (i + 1) = ∑ j ∈ Finset.range (i + 1), bellRec j * Nat.choose i j := by
  have hlen : (bellVals i).length = i + 1 := bellVals_length i
  have hstep : bellRec (i + 1) =
      ∑ j ∈ Finset.range (i + 1), (bellVals i).getD j 0 * binomial_coefficient i j := by
    rw [bellRec, bellVals]
    rw [List.getD_append_right _ _ 0 (i + 1) (by omega)]
    simp [hlen]
  rw [hstep]
  apply Finset.sum_congr rfl
  intro j hj
  have hji : j ≤ i := by
    have := Finset.mem_range.mp hj
    omega
  rw [bellVals_getD_eq_bellRec i j hji, binomial_coefficient_eq_choose]

/-- The Bell triangle of `compute_bell_number` (`bell_number.h`):
row `0` is `[1]`; `T[i][0] = T[i-1][i-1]`; `T[i][j] = T[i][j-1] + T[i-1][j-1]`.
Entries with `j > i` do not exist in the C++ triangle and are set to `0` here;
no verified statement consults them. -/
def bell_triangle : ℕ → ℕ → ℕ
  | 0, 0 => 1
  | 0, _ + 1 => 0
  | i + 1, 0 => bell_triangle i i
  | i + 1, j + 1 => bell_triangle (i + 1) j + bell_triangle i j
termination_by i j => (i, j)

/-- `compute_bell_number` (`bell_number.h`): `1` for `n ≤ 1`, otherwise the
bottom-right entry `T[n-1][n-1]` of the Bell triangle. -/
def compute_bell_number (n : ℕ) : ℕ :=
  if n = 0 ∨ n = 1 then 1 else bell_triangle (n - 1) (n - 1)

/-- Closed form of the Bell triangle in terms of the constructor recurrence:
`T[i][k] = Σ_{j ≤ k} C(k,j) · B(i - k + j)` for `k ≤ i`. -/
theorem bell_triangle_eq : ∀ i k, k ≤ i →
    bell_triangle i k = ∑ j ∈ Finset.range (k + 1), Nat.choose k j * bellRec (i - k + j)
  | 0, 0, _ => by
    rw [bell_triangle]
    simp [bellRec, bellVals]
  | i + 1, 0, _ => by
    rw [bell_triangle, bell_triangle_eq i i le_rfl]
    have hL : ∑ j ∈ Finset.range (i + 1), Nat.choose i j * bellRec (i - i + j) =
        ∑ j ∈ Finset.range (i + 1), bellRec j * Nat.choose i j := by
      apply Finset.sum_congr rfl
      intro j hj
      have : i - i + j = j := by omega
      rw [this, mul_comm]
    rw [hL, ← bellRec_succ i]
    simp
  | i + 1, k + 1, h => by
    have hki : k ≤ i := by omega
    rw [bell_triangle, bell_triangle_eq (i + 1) k (by omega), bell_triangle_eq i k hki]
    rw [Finset.sum_range_succ' (fun j => Nat.choose (k + 1) j * bellRec (i + 1 - (k + 1) + j)) (k + 1)]
    have hsplit : ∀ j, Nat.choose (k + 1) (j + 1) * bellRec (i + 1 - (k + 1) + (j + 1)) =
        Nat.choose k j * bellRec (i + 1 - k + j) + Nat.choose k (j + 1) * bellRec (i - k + (j + 1)) := by
      intro j
      rw [Nat.choose_succ_succ]
      have e1 : i + 1 - (k + 1) + (j + 1) = i + 1 - k + j := by omega
      have e2 : i + 1 - (k + 1) + (j + 1) = i - k + (j + 1) := by omega
      rw [add_mul]
      congr 1
      · rw [e1]
      · rw [e2]
    have hLHS2 : ∑ j ∈ Finset.range (k + 1), Nat.choose (k + 1) (j + 1) * bellRec (i + 1 - (k + 1) + (j + 1)) =
        (∑ j ∈ Finset.range (k + 1), Nat.choose k j * bellRec (i + 1 - k + j)) +
        (∑ j ∈ Finset.range (k + 1), Nat.choose k (j + 1) * bellRec (i - k + (j + 1))) := by
      rw [← Finset.sum_add_distrib]
      apply Finset.sum_congr rfl
      intro j _
      exact hsplit j
    rw [hLHS2]
    have hzero : Nat.choose (k + 1) 0 * bellRec (i + 1 - (k + 1) + 0) = bellRec (i - k) := by
      have : i + 1 - (k + 1) + 0 = i - k := by omega
      rw [this, Nat.choose_zero_right, one_mul]
    rw [hzero]
    have hsum2 : ∑ j ∈ Finset.range (k + 1), Nat.choose k (j + 1) * bellRec (i - k + (j + 1)) + bellRec (i - k) =
        ∑ j ∈ Finset.range (k + 1), Nat.choose k j * bellRec (i - k + j) := by
      rw [Finset.sum_range_succ' (fun j => Nat.choose k j * bellRec (i - k + j)) k]
      congr 1
      · rw [Finset.sum_range_succ]
        have hck : Nat.choose k (k + 1) = 0 := Nat.choose_eq_zero_of_lt (by omega)
        rw [hck, zero_mul, add_zero]
      · rw [Nat.choose_zero_right, one_mul, add_zero]
    omega
termination_by i k => (i, k)

/-- C5: the binomial-sum recurrence computed by the `PartitionGenerator`
constructor (`total_partitions`) and the Bell triangle of
`compute_bell_number` define the same function of `n`, with `B(0) = B(1) = 1`. -/
theorem bellRec_eq_compute_bell_number (n : ℕ) :
    bellRec n = compute_bell_number n := by
  match n with
  | 0 => rfl
  | 1 =>
    rw [compute_bell_number]
    simp only [bellRec_succ]
    simp [bellRec, bellVals]
  | m + 2 =>
    rw [compute_bell_number]
    have h2 : ¬ (m + 2 = 0 ∨ m + 2 = 1) := by omega
    rw [if_neg h2]
    have hmm : m + 2 - 1 = m + 1 := by omega
    rw [hmm, bell_triangle_eq (m + 1) (m + 1) le_rfl, bellRec_succ (m + 1)]
    apply Finset.sum_congr rfl
    intro j hj
    have : m + 1 - (m + 1) + j = j := by omega
    rw [this, mul_comm]

/-! ### The chunked partition generator (`partition_analyzer.h`, claims C1, C7, C10) -/

/-- State of a `PartitionGenerator` object: the element list and the two
counters.  `max_partitions` is set by the constructor to the Bell number of
`elements.size()` via the binomial recurrence (`bellRec`). -/
structure PartitionGenerator where
  elements : List ℕ
  current_idx : ℕ
  max_partitions : ℕ
deriving DecidableEq

/-- The `PartitionGenerator(elems)` constructor. -/
def PartitionGenerator.init (elems : List ℕ) : PartitionGenerator :=
  ⟨elems, 0, bellRec elems.length⟩

/-- The candidates generated from one partition when element `e` is processed,
in loop order: `e` appended to block `j` for each `j` (option 1), then `e` as
a new block (option 2). -/
def expandPartition (partition : IndexPartition) (e : ℕ) : List IndexPartition :=
  (List.range partition.length).map
      (fun j => partition.set j (partition.getD j [] ++ [e])) ++
    [partition ++ [[e]]]

/-- The element loop of `generate_partitions_chunk` for two or more elements.
Candidates of the next level are produced one at a time; after each push the
code compares `result.size() + next_level.size()` (with `result` still empty)
against `chunk_size` and returns the accumulated `next_level` as soon as the
threshold is reached — i.e. the first `effStop` candidates of the first level
whose size reaches `effStop`.  If no level reaches the threshold, the final
level is returned whole. -/
def chunkLoop (effStop : ℕ) : List ℕ → List IndexPartition → List IndexPartition
  | [], level => level
  | e :: rest, level =>
    if effStop ≤ (level.flatMap (fun p => expandPartition p e)).length then
      (level.flatMap (fun p => expandPartition p e)).take effStop
    else chunkLoop effStop rest (level.flatMap (fun p => expandPartition p e))

/-- `PartitionGenerator::generate_partitions_chunk`.  Note the C++ restarts
from the seed `{{elements[0]}}` on every call: for two or more elements the
produced chunk does not depend on `current_idx` at all. -/
def PartitionGenerator.generate_partitions_chunk (s : PartitionGenerator)
    (chunk_size : ℕ) : List IndexPartition × PartitionGenerator :=
  match s.elements with
  | [] => ([], s)
  | [e] =>
    if s.current_idx = 0 then ([[[e]]], { s with current_idx := 1 })
    else ([], s)
  | e₀ :: e₁ :: rest =>
    (chunkLoop (max chunk_size 1) (e₁ :: rest) [[[e₀]]],
     { s with current_idx :=
        s.current_idx + (chunkLoop (max chunk_size 1) (e₁ :: rest) [[[e₀]]]).length })

/-- `PartitionGenerator::has_more`. -/
def PartitionGenerator.has_more (s : PartitionGenerator) : Bool :=
  decide (s.current_idx < s.max_partitions)

/-- `PartitionGenerator::next_chunk`. -/
def PartitionGenerator.next_chunk (s : PartitionGenerator) (chunk_size : ℕ) :
    List IndexPartition × PartitionGenerator :=
  if s.has_more then s.generate_partitions_chunk chunk_size else ([], s)

/-- `PartitionGenerator::total_partitions`. -/
def PartitionGenerator.total_partitions (s : PartitionGenerator) : ℕ :=
  s.max_partitions

/-- `PartitionGenerator::current_progress`. -/
def PartitionGenerator.current_progress (s : PartitionGenerator) : ℕ :=
  s.current_idx

/-- The generator state after `k` calls to `next_chunk(chunk_size)`. -/
def iterateChunks (chunk_size : ℕ) : ℕ → PartitionGenerator → PartitionGenerator
  | 0, s => s
  | k + 1, s => iterateChunks chunk_size k (s.next_chunk chunk_size).2

/-- Chunks produced by `k` successive `next_chunk(chunk_size)` calls,
concatenated. -/
def collectChunks (chunk_size : ℕ) : ℕ → PartitionGenerator → List IndexPartition
  | 0, _ => []
  | k + 1, s =>
    (s.next_chunk chunk_size).1 ++ collectChunks chunk_size k (s.next_chunk chunk_size).2

theorem expandPartition_ne_nil (p : IndexPartition) (e : ℕ) :
    expandPartition p e ≠ [] := by
  simp [expandPartition]

theorem flatMap_expand_ne_nil (e : ℕ) :
    ∀ (level : List IndexPartition), level ≠ [] →
      level.flatMap (fun p => expandPartition p e) ≠ []
  | [], h => absurd rfl h
  | p :: rest, _ => by
    rw [List.flatMap_cons]
    intro hcontra
    exact expandPartition_ne_nil p e (List.append_eq_nil.mp hcontra).1

theorem chunkLoop_ne_nil (effStop : ℕ) (he : 1 ≤ effStop) :
    ∀ (es : List ℕ) (level : List IndexPartition), level ≠ [] →
      chunkLoop effStop es level ≠ []
  | [], _, h => h
  | e :: rest, level, h => by
    rw [chunkLoop]
    by_cases hc : effStop ≤ (level.flatMap (fun p => expandPartition p e)).length
    · rw [if_pos hc]
      have hpos : 0 < ((level.flatMap (fun p => expandPartition p e)).take effStop).length := by
        rw [List.length_take]
        omega
      exact List.ne_nil_of_length_pos hpos
    · rw [if_neg hc]
      exact chunkLoop_ne_nil effStop he rest _ (flatMap_expand_ne_nil e level h)

theorem next_chunk_state_eq (s : PartitionGenerator) (cs : ℕ) :
    ((s.next_chunk cs).2).elements = s.elements ∧
    ((s.next_chunk cs).2).max_partitions = s.max_partitions := by
  obtain ⟨els, idx, mx⟩ := s
  rw [PartitionGenerator.next_chunk]
  by_cases h : PartitionGenerator.has_more ⟨els, idx, mx⟩ = true
  · rw [if_pos h]
    cases els with
    | nil => exact ⟨rfl, rfl⟩
    | cons e0 tl =>
      cases tl with
      | nil =>
        cases idx with
        | zero => exact ⟨rfl, rfl⟩
        | succ m => exact ⟨rfl, rfl⟩
      | cons e1 rest => exact ⟨rfl, rfl⟩
  · rw [if_neg h]
    exact ⟨rfl, rfl⟩

theorem next_chunk_progress (s : PartitionGenerator) (cs : ℕ)
    (hne : s.elements ≠ [])
    (hmax : s.max_partitions = bellRec s.elements.length)
    (hmore : s.current_idx < s.max_partitions) :
    (s.next_chunk cs).1 ≠ [] ∧ s.current_idx < (s.next_chunk cs).2.current_idx := by
  obtain ⟨els, idx, mx⟩ := s
  simp only at hne hmax hmore
  have hhm : PartitionGenerator.has_more ⟨els, idx, mx⟩ = true := by
    simp [PartitionGenerator.has_more]
    omega
  rw [PartitionGenerator.next_chunk, if_pos hhm]
  cases els with
  | nil => exact absurd rfl hne
  | cons e0 tl =>
    cases tl with
    | nil =>
      have hmax1 : mx = 1 := by rw [hmax]; rfl
      have hidx : idx = 0 := by omega
      subst hidx
      constructor
      · simp [PartitionGenerator.generate_partitions_chunk]
      · simp [PartitionGenerator.generate_partitions_chunk,
          PartitionGenerator.current_idx]
    | cons e1 rest =>
      rw [PartitionGenerator.generate_partitions_chunk]
      have hres : chunkLoop (max cs 1) (e1 :: rest) [[[e0]]] ≠ [] :=
        chunkLoop_ne_nil (max cs 1) (by omega) (e1 :: rest) [[[e0]]] (by simp)
      constructor
      · exact hres
      · have : 0 < (chunkLoop (max cs 1) (e1 :: rest) [[[e0]]]).length :=
          List.length_pos.mpr hres
        simp only [PartitionGenerator.current_idx]
        omega

theorem generator_eventually_stops (chunk_size : ℕ) :
    ∀ (n : ℕ) (s : PartitionGenerator), s.max_partitions - s.current_idx ≤ n →
      s.elements ≠ [] → s.max_partitions = bellRec s.elements.length →
      ∃ k, (iterateChunks chunk_size k s).has_more = false := by
  intro n
  induction n with
  | zero =>
    intro s hm _ _
    refine ⟨0, ?_⟩
    simp [iterateChunks, PartitionGenerator.has_more]
    omega
  | succ n ih =>
    intro s hm hne hmax
    by_cases h : s.current_idx < s.max_partitions
    · obtain ⟨_, hprog⟩ := next_chunk_progress s chunk_size hne hmax h
      obtain ⟨hel, hmx⟩ := next_chunk_state_eq s chunk_size
      obtain ⟨k, hk⟩ := ih (s.next_chunk chunk_size).2
        (by rw [hmx]; omega)
        (by rw [hel]; exact hne)
        (by rw [hel, hmx]; exact hmax)
      exact ⟨k + 1, by rw [iterateChunks]; exact hk⟩
    · refine ⟨0, ?_⟩
      simp [iterateChunks, PartitionGenerator.has_more]
      omega

/-- Helper for the `n = 0` generator: `next_chunk` is the identity, so the
state never changes. -/
theorem iterateChunks_empty_elements (chunk_size : ℕ) :
    ∀ k : ℕ, iterateChunks chunk_size k (PartitionGenerator.init []) =
      PartitionGenerator.init []
  | 0 => rfl
  | k + 1 => by
    rw [iterateChunks]
    have hstep : ((PartitionGenerator.init []).next_chunk chunk_size).2 =
        PartitionGenerator.init [] := rfl
    rw [hstep]
    exact iterateChunks_empty_elements chunk_size k

/-- C7: evaluation of the generator at the failing input `n = 0`.  The fresh
generator over zero elements reports `total() = 1` and `has_more() = true`,
but every `next_chunk` call returns the empty chunk and leaves the state
unchanged, so the empty partition is never yielded and `has_more()` stays
`true` forever — contradicting the claim that the chunks collectively yield
one zero-block partition after which `has_more()` is `false`. -/
theorem empty_generator_never_yields :
    (PartitionGenerator.init []).total_partitions = 1 ∧
    (PartitionGenerator.init []).has_more = true ∧
    (∀ chunk_size : ℕ,
      (PartitionGenerator.init []).next_chunk chunk_size =
        ([], PartitionGenerator.init [])) ∧
    (∀ chunk_size k : ℕ,
      (iterateChunks chunk_size k (PartitionGenerator.init [])).has_more = true) := by
  refine ⟨rfl, rfl, fun _ => rfl, fun chunk_size k => ?_⟩
  rw [iterateChunks_empty_elements chunk_size k]
  rfl

/-- C1: evaluation of the generator at the failing input `n = 2`,
`chunk_size = 1`.  Because `generate_partitions_chunk` restarts from scratch
on every call and returns early once the threshold is hit, the two chunks are
`[[{0,1}]]` and `[[{0,1}]]`: the partition `{{0},{1}}` is never produced and
`{{0,1}}` is produced twice, even though `total() = B(2) = 2` and
`has_more()` correctly becomes `false`. -/
theorem chunked_enumeration_repeats :
    collectChunks 1 2 (PartitionGenerator.init [0, 1]) = [[[0, 1]], [[0, 1]]] ∧
    (iterateChunks 1 2 (PartitionGenerator.init [0, 1])).has_more = false ∧
    [[0], [1]] ∉ collectChunks 1 2 (PartitionGenerator.init [0, 1]) ∧
    (PartitionGenerator.init [0, 1]).total_partitions = 2 := by
  refine ⟨by decide, by decide, by decide, by decide⟩

/-- C10: chunked processing terminates for non-empty element lists.  For any
generator state over a non-empty element list whose `max_partitions` is the
constructor's Bell number, while `has_more()` holds a `next_chunk` call
returns at least one partition and strictly increases `current_progress()`,
and some finite number of `next_chunk` calls drives `has_more()` to `false`.
This applies equally to the input generator and to each fresh output
generator of `process_partition_chunks`. -/
theorem process_partition_chunks_terminates (s : PartitionGenerator)
    (chunk_size : ℕ)
    (hne : s.elements ≠ [])
    (hmax : s.max_partitions = bellRec s.elements.length)
    (hmore : s.current_idx < s.max_partitions) :
    (s.next_chunk chunk_size).1 ≠ [] ∧
    s.current_progress < (s.next_chunk chunk_size).2.current_progress ∧
    ∃ k, (iterateChunks chunk_size k s).has_more = false := by
  obtain ⟨h1, h2⟩ := next_chunk_progress s chunk_size hne hmax hmore
  exact ⟨h1, h2,
    generator_eventually_stops chunk_size (s.max_partitions - s.current_idx) s
      le_rfl hne hmax⟩

/-- Witness for `process_partition_chunks_terminates`: a fresh generator over
three elements with the program's chunk size 500. -/
theorem process_partition_chunks_terminates_witness :
    ((PartitionGenerator.init [0, 1, 2]).next_chunk 500).1 ≠ [] ∧
    (PartitionGenerator.init [0, 1, 2]).current_progress <
      ((PartitionGenerator.init [0, 1, 2]).next_chunk 500).2.current_progress ∧
    ∃ k, (iterateChunks 500 k (PartitionGenerator.init [0, 1, 2])).has_more = false :=
  process_partition_chunks_terminates (PartitionGenerator.init [0, 1, 2]) 500
    (by decide) rfl (by decide)

/-! ### Permutation enumeration of `check_all_permutations` (claim C3) -/

/-- All permutations of `l`, grouped by first element in the order the
elements appear in `l`; within a group, recursively likewise.  For a list
sorted strictly ascending this is exactly lexicographic order — the order in
which the C++ `do { … } while (std::next_permutation(indices.begin(),
indices.end()))` loop visits permutations when `indices` starts at the
identity.  The first argument is structural fuel (`l.length ≤ n`). -/
def permsOfAux : ℕ → List ℕ → List (List ℕ)
  | _, [] => [[]]
  | 0, _ :: _ => []
  | n + 1, x :: xs =>
    (x :: xs).flatMap (fun y => (permsOfAux n ((x :: xs).erase y)).map (y :: ·))

/-- The lexicographic permutation sequence visited by the
`std::next_permutation` loop starting from `l` itself. -/
def permsLex (l : List ℕ) : List (List ℕ) := permsOfAux l.length l

theorem permsOfAux_mem :
    ∀ (n : ℕ) (l : List ℕ), l.length ≤ n → ∀ p, p ∈ permsOfAux n l ↔ p.Perm l
  | n, [], _, p => by
    cases n <;> simp [permsOfAux, List.perm_nil]
  | 0, x :: xs, h, p => by simp at h
  | n + 1, x :: xs, h, p => by
    rw [permsOfAux]
    simp only [List.mem_flatMap, List.mem_map]
    constructor
    · rintro ⟨y, hy, q, hq, rfl⟩
      have hlen : ((x :: xs).erase y).length ≤ n := by
        rw [List.length_erase, if_pos hy]
        simp only [List.length_cons] at h ⊢
        omega
      have hqperm : q.Perm ((x :: xs).erase y) :=
        (permsOfAux_mem n _ hlen q).mp hq
      exact (List.cons_perm_iff_perm_erase.mpr ⟨hy, hqperm⟩)
    · intro hp
      rcases p with _ | ⟨y, q⟩
      · exact absurd hp.symm (by simp)
      · have := List.cons_perm_iff_perm_erase.mp hp
        refine ⟨y, this.1, q, ?_, rfl⟩
        have hlen : ((x :: xs).erase y).length ≤ n := by
          rw [List.length_erase, if_pos this.1]
          simp only [List.length_cons] at h ⊢
          omega
        exact (permsOfAux_mem n _ hlen q).mpr this.2

theorem permsOfAux_length :
    ∀ (n : ℕ) (l : List ℕ), l.Nodup → l.length ≤ n →
      (permsOfAux n l).length = l.length.factorial
  | n, [], _, _ => by cases n <;> simp [permsOfAux]
  | 0, x :: xs, _, h => by simp at h
  | n + 1, x :: xs, hnd, h => by
    rw [permsOfAux, List.length_flatMap]
    have hxs : xs.length ≤ n := by
      simp only [List.length_cons] at h
      omega
    have hcong : ∀ y ∈ x :: xs,
        (List.length ∘ fun y => (permsOfAux n ((x :: xs).erase y)).map (y :: ·)) y =
          xs.length.factorial := by
      intro y hy
      have hlen : ((x :: xs).erase y).length = xs.length := by
        rw [List.length_erase, if_pos hy]
        simp
      simp only [Function.comp, List.length_map]
      rw [permsOfAux_length n _ (hnd.erase y) (by omega), hlen]
    rw [List.map_congr_left hcong, List.map_const', List.sum_replicate]
    simp only [List.length_cons, Nat.factorial_succ, smul_eq_mul]

theorem pairwise_flatMap_of {α β : Type} {R : β → β → Prop} {f : α → List β} :
    ∀ {l : List α}, (∀ a ∈ l, (f a).Pairwise R) →
      l.Pairwise (fun a b => ∀ x ∈ f a, ∀ y ∈ f b, R x y) →
      (l.flatMap f).Pairwise R
  | [], _, _ => List.Pairwise.nil
  | a :: tl, hin, hcross => by
    rw [List.flatMap_cons, List.pairwise_append]
    rw [List.pairwise_cons] at hcross
    refine ⟨hin a (by simp), pairwise_flatMap_of (fun b hb => hin b (by simp [hb]))
      hcross.2, ?_⟩
    intro x hx y hy
    obtain ⟨b, hb, hyb⟩ := List.mem_flatMap.mp hy
    exact hcross.1 b hb x hx y hyb

theorem permsOfAux_sorted :
    ∀ (n : ℕ) (l : List ℕ), l.length ≤ n → l.Sorted (· < ·) →
      (permsOfAux n l).Pairwise (List.Lex (· < ·))
  | n, [], _, _ => by cases n <;> simp [permsOfAux]
  | 0, x :: xs, h, _ => by simp at h
  | n + 1, x :: xs, h, hs => by
    rw [permsOfAux]
    apply pairwise_flatMap_of
    · intro y hy
      rw [List.pairwise_map]
      have hlen : ((x :: xs).erase y).length ≤ n := by
        rw [List.length_erase, if_pos hy]
        simp only [List.length_cons] at h ⊢
        omega
      have hsorted : ((x :: xs).erase y).Sorted (· < ·) :=
        List.Pairwise.sublist (List.erase_sublist y (x :: xs)) hs
      have := permsOfAux_sorted n _ hlen hsorted
      exact this.imp (fun hlex => List.Lex.cons hlex)
    · refine hs.imp ?_
      intro a b hab p hp q hq
      obtain ⟨p', _, rfl⟩ := List.mem_map.mp hp
      obtain ⟨q', _, rfl⟩ := List.mem_map.mp hq
      exact List.Lex.rel hab

theorem permsOfAux_head :
    ∀ (n : ℕ) (l : List ℕ), l.length ≤ n → (permsOfAux n l).head? = some l
  | n, [], _ => by cases n <;> simp [permsOfAux]
  | 0, x :: xs, h => by simp at h
  | n + 1, x :: xs, h => by
    rw [permsOfAux, List.flatMap_cons, List.head?_append]
    rw [List.erase_cons_head]
    have hxs : xs.length ≤ n := by
      simp only [List.length_cons] at h
      omega
    have hh := permsOfAux_head n xs hxs
    rcases hpa : permsOfAux n xs with _ | ⟨q, t⟩
    · rw [hpa] at hh
      simp at hh
    · rw [hpa] at hh
      simp only [List.head?] at hh
      have hq : q = xs := by injection hh
      subst hq
      rfl

theorem lex_lt_irrefl : ∀ (p : List ℕ), ¬ List.Lex (· < ·) p p
  | [], h => by cases h
  | a :: l, h => by
    cases h with
    | cons h => exact lex_lt_irrefl l h
    | rel h => exact lt_irrefl a h

theorem permsLex_nodup (l : List ℕ) (hs : l.Sorted (· < ·)) :
    (permsLex l).Nodup := by
  have := permsOfAux_sorted l.length l le_rfl hs
  exact this.imp (fun hlex heq => absurd (heq ▸ hlex) (lex_lt_irrefl _))

/-- `check_all_permutations` (`partition_analyzer.h`): visit every permutation
of `{0..k-1}` in lexicographic order starting from the identity (the
`std::next_permutation` do/while loop, modelled by `permsLex`), and emit — in
visit order — those for which the permuted output partition passes
`is_valid_mapping` against the input partition.  The emitted list stands for
the sequence of mappings written to the CSV. -/
def check_all_permutations (td : TransactionData)
    (input_partition output_partition : IndexPartition)
    (input_mapper output_mapper : ElementMapper) : List (List ℕ) :=
  (permsLex (List.range output_partition.length)).filter
    (fun indices => is_valid_mapping td input_partition
      (applyPerm indices output_partition) input_mapper output_mapper)

/-- Validity of one permuted pairing, stated pointwise: used to phrase C3. -/
theorem is_valid_mapping_applyPerm_iff (td : TransactionData)
    (im om : ElementMapper) (ip op : IndexPartition)
    (hlen : ip.length = op.length)
    (p : List ℕ) (hp : p.Perm (List.range op.length)) :
    is_valid_mapping td ip (applyPerm p op) im om = true ↔
      ∀ i, i < ip.length →
        outputGroupValue td om (op.getD (p.getD i 0) []) ≤
          inputGroupValue td im (ip.getD i []) := by
  have plen : p.length = op.length := by simpa using hp.length_eq
  have happlen : (applyPerm p op).length = op.length := by simp [applyPerm, plen]
  have happ : ∀ i, i < ip.length →
      (applyPerm p op).getD i [] = op.getD (p.getD i 0) [] := by
    intro i hi
    have hip : i < p.length := by omega
    rw [applyPerm, List.getD_eq_get _ [] (by simpa using hip), List.get_map,
      List.getD_eq_get p 0 hip]
  rw [is_valid_mapping,
    if_neg (show ¬ ip.length ≠ (applyPerm p op).length from
      fun hne => hne (by rw [happlen]; exact hlen)),
    List.all_eq_true]
  constructor
  · intro H i hi
    have h2 := of_decide_eq_true (H i (List.mem_range.mpr hi))
    rwa [happ i hi] at h2
  · intro H i hi
    have hi' := List.mem_range.mp hi
    apply decide_eq_true
    rw [happ i hi']
    exact H i hi'

/-- C3: `check_all_permutations` enumerates all `k!` permutations of
`{0..k-1}` in lexicographic order starting from the identity, and emits
exactly — each exactly once — those permutations `σ` for which the value sum
of output block `σ(i)` is at most the value sum of input block `i` for every
`i`. -/
theorem check_all_permutations_correct (td : TransactionData)
    (im om : ElementMapper) (ip op : IndexPartition)
    (hlen : ip.length = op.length) :
    (∀ p, p ∈ permsLex (List.range op.length) ↔ p.Perm (List.range op.length)) ∧
    (permsLex (List.range op.length)).Pairwise (List.Lex (· < ·)) ∧
    (permsLex (List.range op.length)).length = Nat.factorial op.length ∧
    (permsLex (List.range op.length)).head? = some (List.range op.length) ∧
    (∀ p, p ∈ check_all_permutations td ip op im om ↔
      (p.Perm (List.range op.length) ∧
        ∀ i, i < ip.length →
          outputGroupValue td om (op.getD (p.getD i 0) []) ≤
            inputGroupValue td im (ip.getD i []))) ∧
    (check_all_permutations td ip op im om).Nodup := by
  have hk : (List.range op.length).length = op.length := List.length_range _
  refine ⟨?_, ?_, ?_, ?_, ?_, ?_⟩
  · intro p
    rw [permsLex]
    exact permsOfAux_mem _ _ le_rfl p
  · rw [permsLex]
    exact permsOfAux_sorted _ _ le_rfl (List.sorted_lt_range _)
  · rw [permsLex]
    rw [permsOfAux_length _ _ (List.nodup_range _) le_rfl, hk]
  · rw [permsLex]
    exact permsOfAux_head _ _ le_rfl
  · intro p
    rw [check_all_permutations, List.mem_filter]
    constructor
    · rintro ⟨hmem, hval⟩
      have hperm : p.Perm (List.range op.length) := by
        rw [permsLex] at hmem
        exact (permsOfAux_mem _ _ le_rfl p).mp hmem
      exact ⟨hperm,
        (is_valid_mapping_applyPerm_iff td im om ip op hlen p hperm).mp hval⟩
    · rintro ⟨hperm, hval⟩
      refine ⟨by rw [permsLex]; exact (permsOfAux_mem _ _ le_rfl p).mpr hperm, ?_⟩
      exact (is_valid_mapping_applyPerm_iff td im om ip op hlen p hperm).mpr hval
  · exact (permsLex_nodup _ (List.sorted_lt_range _)).filter _

/-- Witness for `check_all_permutations_correct`: the empty transaction with
singleton partitions `[[0]]` on both sides. -/
theorem check_all_permutations_correct_witness :
    (∀ p, p ∈ permsLex (List.range ([[0]] : IndexPartition).length) ↔
      p.Perm (List.range ([[0]] : IndexPartition).length)) ∧
    (permsLex (List.range ([[0]] : IndexPartition).length)).Pairwise
      (List.Lex (· < ·)) ∧
    (permsLex (List.range ([[0]] : IndexPartition).length)).length =
      Nat.factorial ([[0]] : IndexPartition).length ∧
    (permsLex (List.range ([[0]] : IndexPartition).length)).head? =
      some (List.range ([[0]] : IndexPartition).length) ∧
    (∀ p, p ∈ check_all_permutations ⟨[], [], [], []⟩ [[0]] [[0]] ⟨[]⟩ ⟨[]⟩ ↔
      (p.Perm (List.range ([[0]] : IndexPartition).length) ∧
        ∀ i, i < ([[0]] : IndexPartition).length →
          outputGroupValue ⟨[], [], [], []⟩ ⟨[]⟩ (([[0]] : IndexPartition).getD (p.getD i 0) []) ≤
            inputGroupValue ⟨[], [], [], []⟩ ⟨[]⟩ (([[0]] : IndexPartition).getD i []))) ∧
    (check_all_permutations ⟨[], [], [], []⟩ [[0]] [[0]] ⟨[]⟩ ⟨[]⟩).Nodup :=
  check_all_permutations_correct ⟨[], [], [], []⟩ ⟨[]⟩ ⟨[]⟩ [[0]] [[0]] rfl

/-! ### CSV formatting and conservation (claim C4) -/

/-- The summary row written by `format_mapping_for_csv`. -/
structure MappingSummary where
  mapping_idx : ℕ
  group_count : ℕ
  total_input : ℚ
  total_output : ℚ
  total_difference : ℚ
deriving DecidableEq

/-- One detail row written by `format_mapping_for_csv`. -/
structure MappingRow where
  mapping_idx : ℕ
  group_number : ℕ
  input_group : List String
  input_value : ℚ
  output_group : List String
  output_value : ℚ
  difference : ℚ
deriving DecidableEq

/-- `format_mapping_for_csv` (`partition_analyzer.h`): the summary row and the
`k` detail rows for one mapping.  Both loops run over the index range of the
input string partition, as in the source; the `indices` parameter is accepted
and ignored, as in the source.  Numeric cells hold the computed values; the
textual serialisation is not modelled. -/
def format_mapping_for_csv (td : TransactionData) (ip op : IndexPartition)
    (_indices : List ℕ) (im om : ElementMapper) (mapping_idx : ℕ) :
    MappingSummary × List MappingRow :=
  (⟨mapping_idx, ip.length,
    ((List.range ip.length).map (fun i => inputGroupValue td im (ip.getD i []))).sum,
    ((List.range ip.length).map (fun i => outputGroupValue td om (op.getD i []))).sum,
    ((List.range ip.length).map (fun i => inputGroupValue td im (ip.getD i []))).sum -
      ((List.range ip.length).map (fun i => outputGroupValue td om (op.getD i []))).sum⟩,
   (List.range ip.length).map (fun i =>
    ⟨mapping_idx, i,
     im.to_string_set (ip.getD i []),
     inputGroupValue td im (ip.getD i []),
     om.to_string_set (op.getD i []),
     outputGroupValue td om (op.getD i []),
     inputGroupValue td im (ip.getD i []) - outputGroupValue td om (op.getD i [])⟩))

theorem sum_map_blocks (w : ℕ → ℚ) (P : IndexPartition) :
    (P.map (fun g => (g.map w).sum)).sum = (P.flatten.map w).sum := by
  rw [List.map_flatten, List.sum_flatten, List.map_map]
  rfl

/-- If a partition's blocks cover `{0..n-1}` exactly once, the sum of its
block values equals the sum over all elements. -/
theorem sum_groupValues_of_cover (elems : List String) (v : String → ℚ)
    (P : IndexPartition) (hcover : P.flatten.Perm (List.range elems.length)) :
    ((List.range P.length).map
        (fun i => (((P.getD i []).map (fun idxb => elems.getD idxb "")).map v).sum)).sum =
      (elems.map v).sum := by
  rw [map_range_getD
    (fun g => ((g.map (fun idxb => elems.getD idxb "")).map v).sum) [] P]
  have hstep : P.map (fun g => ((g.map (fun idxb => elems.getD idxb "")).map v).sum) =
      P.map (fun g => (g.map (fun idxb => v (elems.getD idxb ""))).sum) := by
    apply List.map_congr_left
    intro g _
    rw [List.map_map]
    rfl
  rw [hstep, sum_map_blocks (fun idxb => v (elems.getD idxb "")) P]
  rw [(hcover.map (fun idxb => v (elems.getD idxb ""))).sum_eq]
  rw [map_range_getD v "" elems]

/-- Summing the looked-up value of every key of a key-nodup association list
gives the sum of all stored values. -/
theorem sum_lookup_keys :
    ∀ (m : List (String × ℚ)), (m.map Prod.fst).Nodup →
      ((m.map Prod.fst).map (fun id => ((m.lookup id).getD 0 : ℚ))).sum =
        (m.map Prod.snd).sum
  | [], _ => by simp
  | (k, v) :: rest, hnd => by
    have hfst : List.map Prod.fst ((k, v) :: rest) = k :: List.map Prod.fst rest := rfl
    have hsnd : List.map Prod.snd ((k, v) :: rest) = v :: List.map Prod.snd rest := rfl
    rw [hfst] at hnd
    rw [hfst, hsnd, List.map_cons, List.sum_cons, List.sum_cons]
    rw [List.nodup_cons] at hnd
    have hk : ((((k, v) :: rest).lookup k).getD 0 : ℚ) = v := by
      simp [List.lookup]
    have hrest : ∀ id ∈ rest.map Prod.fst,
        ((((k, v) :: rest).lookup id).getD 0 : ℚ) = ((rest.lookup id).getD 0 : ℚ) := by
      intro id hid
      have hne : k ≠ id := fun h => hnd.1 (h ▸ hid)
      simp [List.lookup, beq_eq_false_iff_ne.mpr (Ne.symm hne)]
    rw [hk, List.map_congr_left hrest, sum_lookup_keys rest hnd.2]

theorem sum_map_sub (f g : ℕ → ℚ) :
    ∀ (l : List ℕ), (l.map (fun i => f i - g i)).sum = (l.map f).sum - (l.map g).sum
  | [] => by simp
  | a :: tl => by
    rw [List.map_cons, List.map_cons, List.map_cons, List.sum_cons, List.sum_cons,
      List.sum_cons, sum_map_sub f g tl]
    ring

/-- C4: conservation.  For every mapping handed to the CSV formatter whose
input partition covers all input indices exactly once and whose output
partition covers all output indices exactly once, the summary row's
`Total_Input_Value` equals `total_input_value()`, `Total_Output_Value` equals
`total_output_value()`, and the per-group `Difference` values of the `k`
detail rows sum to `get_fee() = total_input_value() − total_output_value()`. -/
theorem format_mapping_conservation (td : TransactionData) (im om : ElementMapper)
    (ip op : IndexPartition) (indices : List ℕ) (idx : ℕ)
    (him : im.elements = td.input_ids)
    (hom : om.elements = td.output_ids)
    (hikeys : td.input_ids = td.inputs.map Prod.fst)
    (hokeys : td.output_ids = td.outputs.map Prod.fst)
    (hinodup : td.input_ids.Nodup)
    (honodup : td.output_ids.Nodup)
    (hicover : ip.flatten.Perm (List.range td.input_ids.length))
    (hocover : op.flatten.Perm (List.range td.output_ids.length))
    (hlen : ip.length = op.length) :
    (format_mapping_for_csv td ip op indices im om idx).1.total_input =
      td.total_input_value ∧
    (format_mapping_for_csv td ip op indices im om idx).1.total_output =
      td.total_output_value ∧
    ((format_mapping_for_csv td ip op indices im om idx).2.map
      MappingRow.difference).sum = td.get_fee := by
  have hinlen : im.elements.length = td.input_ids.length := by rw [him]
  have honlen : om.elements.length = td.output_ids.length := by rw [hom]
  have hin : ((List.range ip.length).map
      (fun i => inputGroupValue td im (ip.getD i []))).sum = td.total_input_value := by
    have hbridge : ∀ i : ℕ, inputGroupValue td im (ip.getD i []) =
        (((ip.getD i []).map (fun idxb => im.elements.getD idxb "")).map
          td.get_input_value).sum := fun _ => rfl
    have hcong : ∀ i ∈ List.range ip.length,
        inputGroupValue td im (ip.getD i []) =
          (((ip.getD i []).map (fun idxb => im.elements.getD idxb "")).map
            td.get_input_value).sum := fun i _ => hbridge i
    rw [List.map_congr_left hcong,
      sum_groupValues_of_cover im.elements td.get_input_value ip
        (by rw [hinlen]; exact hicover)]
    rw [him, hikeys]
    exact sum_lookup_keys td.inputs (hikeys ▸ hinodup)
  have hout : ((List.range ip.length).map
      (fun i => outputGroupValue td om (op.getD i []))).sum = td.total_output_value := by
    have hcong : ∀ i ∈ List.range op.length,
        outputGroupValue td om (op.getD i []) =
          (((op.getD i []).map (fun idxb => om.elements.getD idxb "")).map
            td.get_output_value).sum := fun i _ => rfl
    rw [hlen, List.map_congr_left hcong,
      sum_groupValues_of_cover om.elements td.get_output_value op
        (by rw [honlen]; exact hocover)]
    rw [hom, hokeys]
    exact sum_lookup_keys td.outputs (hokeys ▸ honodup)
  refine ⟨hin, ?_, ?_⟩
  · exact hout
  · have hrows : (format_mapping_for_csv td ip op indices im om idx).2.map
        MappingRow.difference =
        (List.range ip.length).map
          (fun i => inputGroupValue td im (ip.getD i []) -
            outputGroupValue td om (op.getD i [])) := by
      rw [format_mapping_for_csv]
      rw [List.map_map]
      rfl
    rw [hrows, sum_map_sub, hin, hout]
    rfl

/-- Witness for `format_mapping_conservation`: one input `a ↦ 3`, two outputs
`b ↦ 1`, `c ↦ 2`, with partitions `[[0]]` and `[[0,1]]`. -/
theorem format_mapping_conservation_witness :
    (format_mapping_for_csv ⟨[("a", 3)], [("b", 1), ("c", 2)], ["a"], ["b", "c"]⟩
      [[0]] [[0, 1]] [0] ⟨["a"]⟩ ⟨["b", "c"]⟩ 1).1.total_input =
      TransactionData.total_input_value
        ⟨[("a", 3)], [("b", 1), ("c", 2)], ["a"], ["b", "c"]⟩ ∧
    (format_mapping_for_csv ⟨[("a", 3)], [("b", 1), ("c", 2)], ["a"], ["b", "c"]⟩
      [[0]] [[0, 1]] [0] ⟨["a"]⟩ ⟨["b", "c"]⟩ 1).1.total_output =
      TransactionData.total_output_value
        ⟨[("a", 3)], [("b", 1), ("c", 2)], ["a"], ["b", "c"]⟩ ∧
    ((format_mapping_for_csv ⟨[("a", 3)], [("b", 1), ("c", 2)], ["a"], ["b", "c"]⟩
      [[0]] [[0, 1]] [0] ⟨["a"]⟩ ⟨["b", "c"]⟩ 1).2.map MappingRow.difference).sum =
      TransactionData.get_fee
        ⟨[("a", 3)], [("b", 1), ("c", 2)], ["a"], ["b", "c"]⟩ :=
  format_mapping_conservation ⟨[("a", 3)], [("b", 1), ("c", 2)], ["a"], ["b", "c"]⟩
    ⟨["a"]⟩ ⟨["b", "c"]⟩ [[0]] [[0, 1]] [0] 1 rfl rfl rfl rfl
    (by decide) (by decide) (by decide) (by decide) rfl

/-! ### `add_input` and duplicate ids (claim C6) -/

theorem assocSet_lookup_self (id : String) (v : ℚ) :
    ∀ (m : List (String × ℚ)), ((assocSet m id v).lookup id).getD 0 = v := by
  intro m
  rw [assocSet]
  by_cases hany : m.any (fun p => decide (p.1 = id)) = true
  · rw [if_pos hany]
    induction m with
    | nil => simp at hany
    | cons kv rest ih =>
      obtain ⟨k, w⟩ := kv
      rw [List.map_cons]
      by_cases hk : k = id
      · subst hk
        have hd : (if (k, w).1 = k then (k, v) else (k, w)) = (k, v) := by simp
        rw [hd]
        simp [List.lookup]
      · have hd : (if (k, w).1 = id then (id, v) else (k, w)) = (k, w) := by
          simp [hk]
        rw [hd]
        have hany' : rest.any (fun p => decide (p.1 = id)) = true := by
          rcases List.any_eq_true.mp hany with ⟨p, hp, hpid⟩
          rcases List.mem_cons.mp hp with rfl | hp'
          · exact absurd (of_decide_eq_true hpid) hk
          · exact List.any_eq_true.mpr ⟨p, hp', hpid⟩
        have hlk : List.lookup id ((k, w) :: (rest.map (fun p => if p.1 = id then (id, v) else p))) =
            List.lookup id (rest.map (fun p => if p.1 = id then (id, v) else p)) := by
          simp [List.lookup, beq_eq_false_iff_ne.mpr (fun h => hk h.symm)]
        rw [hlk]
        exact ih hany'
  · rw [if_neg hany]
    induction m with
    | nil => simp [List.lookup]
    | cons kv rest ih =>
      obtain ⟨k, w⟩ := kv
      have hk : k ≠ id := by
        intro hkid
        exact hany (List.any_eq_true.mpr ⟨(k, w), by simp, by simpa using hkid⟩)
      have hany' : ¬ rest.any (fun p => decide (p.1 = id)) = true := by
        intro hr
        rcases List.any_eq_true.mp hr with ⟨p, hp, hpid⟩
        exact hany (List.any_eq_true.mpr ⟨p, by simp [hp], hpid⟩)
      rw [List.cons_append]
      have hlk : List.lookup id ((k, w) :: (rest ++ [(id, v)])) =
          List.lookup id (rest ++ [(id, v)]) := by
        simp [List.lookup, beq_eq_false_iff_ne.mpr (Ne.symm hk)]
      rw [hlk]
      exact ih hany'

theorem assocSet_lookup_ne (id id' : String) (v : ℚ) (hne : id' ≠ id) :
    ∀ (m : List (String × ℚ)),
      (assocSet m id v).lookup id' = m.lookup id' := by
  intro m
  rw [assocSet]
  by_cases hany : m.any (fun p => decide (p.1 = id)) = true
  · rw [if_pos hany]
    clear hany
    induction m with
    | nil => rfl
    | cons kv rest ih =>
      obtain ⟨k, w⟩ := kv
      rw [List.map_cons]
      by_cases hk : k = id
      · subst hk
        have h1 : (if (k, w).1 = k then (k, v) else (k, w)) = (k, v) := by simp
        rw [h1]
        have h2 : List.lookup id' ((k, v) :: (rest.map (fun p => if p.1 = k then (k, v) else p))) =
            List.lookup id' (rest.map (fun p => if p.1 = k then (k, v) else p)) := by
          simp [List.lookup, beq_eq_false_iff_ne.mpr hne]
        have h3 : List.lookup id' ((k, w) :: rest) = List.lookup id' rest := by
          simp [List.lookup, beq_eq_false_iff_ne.mpr hne]
        rw [h2, h3]
        exact ih
      · have h1 : (if (k, w).1 = id then (id, v) else (k, w)) = (k, w) := by simp [hk]
        rw [h1]
        by_cases hk' : k = id'
        · subst hk'
          simp [List.lookup]
        · have h2 : List.lookup id' ((k, w) :: (rest.map (fun p => if p.1 = id then (id, v) else p))) =
              List.lookup id' (rest.map (fun p => if p.1 = id then (id, v) else p)) := by
            simp [List.lookup, beq_eq_false_iff_ne.mpr (fun h => hk' h.symm)]
          have h3 : List.lookup id' ((k, w) :: rest) = List.lookup id' rest := by
            simp [List.lookup, beq_eq_false_iff_ne.mpr (fun h => hk' h.symm)]
          rw [h2, h3]
          exact ih
  · rw [if_neg hany]
    clear hany
    induction m with
    | nil => simp [List.lookup, beq_eq_false_iff_ne.mpr hne]
    | cons kv rest ih =>
      obtain ⟨k, w⟩ := kv
      rw [List.cons_append]
      by_cases hk' : k = id'
      · subst hk'
        simp [List.lookup]
      · have h2 : List.lookup id' ((k, w) :: (rest ++ [(id, v)])) =
            List.lookup id' (rest ++ [(id, v)]) := by
          simp [List.lookup, beq_eq_false_iff_ne.mpr (fun h => hk' h.symm)]
        have h3 : List.lookup id' ((k, w) :: rest) = List.lookup id' rest := by
          simp [List.lookup, beq_eq_false_iff_ne.mpr (fun h => hk' h.symm)]
        rw [h2, h3]
        exact ih

/-- C6 counterexample: adding a duplicate input id does *not* fail and does
*not* leave the record unchanged — `add_input` silently overwrites the mapped
value and appends the id to `input_ids` a second time. -/
theorem add_input_duplicate_not_error :
    TransactionData.add_input
        (TransactionData.add_input ⟨[], [], [], []⟩ "a" 1) "a" 2 ≠
      TransactionData.add_input ⟨[], [], [], []⟩ "a" 1 ∧
    (TransactionData.add_input
        (TransactionData.add_input ⟨[], [], [], []⟩ "a" 1) "a" 2).input_ids =
      ["a", "a"] ∧
    (TransactionData.add_input
        (TransactionData.add_input ⟨[], [], [], []⟩ "a" 1) "a" 2).get_input_value
      "a" = 2 := by
  refine ⟨by decide, by decide, by decide⟩

/-- C6 as amended: `add_input` performs no validation.  On any record —
including one already containing the id — it succeeds, overwriting the stored
value for that id, leaving all other stored values and the outputs unchanged,
and appending the id to `input_ids` again (so a duplicate id leaves the
record with a duplicated entry in `input_ids`, violating the intended
key-set/sequence invariant rather than failing). -/
theorem add_input_overwrites_and_appends (td : TransactionData) (id : String)
    (v : ℚ) :
    (td.add_input id v).input_ids = td.input_ids ++ [id] ∧
    (td.add_input id v).get_input_value id = v ∧
    (∀ id', id' ≠ id →
      (td.add_input id v).get_input_value id' = td.get_input_value id') ∧
    (td.add_input id v).outputs = td.outputs ∧
    (td.add_input id v).output_ids = td.output_ids := by
  refine ⟨rfl, ?_, ?_, rfl, rfl⟩
  · exact assocSet_lookup_self id v td.inputs
  · intro id' hne
    rw [TransactionData.get_input_value, TransactionData.get_input_value]
    rw [TransactionData.add_input]
    rw [assocSet_lookup_ne id id' v hne td.inputs]

/-- Witness for `add_input_overwrites_and_appends`: adding `b ↦ 5` to a record
that already holds `a ↦ 1`, checking the untouched id `a`. -/
theorem add_input_overwrites_and_appends_witness :
    (TransactionData.add_input ⟨[("a", 1)], [], ["a"], []⟩ "b" 5).input_ids =
      ["a"] ++ ["b"] ∧
    (TransactionData.add_input ⟨[("a", 1)], [], ["a"], []⟩ "b" 5).get_input_value
      "b" = 5 ∧
    ("a" : String) ≠ "b" ∧
    (TransactionData.add_input ⟨[("a", 1)], [], ["a"], []⟩ "b" 5).get_input_value
      "a" = TransactionData.get_input_value ⟨[("a", 1)], [], ["a"], []⟩ "a" := by
  have h := add_input_overwrites_and_appends ⟨[("a", 1)], [], ["a"], []⟩ "b" 5
  exact ⟨h.1, h.2.1, by decide, h.2.2.1 "a" (by decide)⟩

/-! ### Subset-pairs mode (`subset_generator.h`, `subset_analyzer.h`, claim C8) -/

/-- The subset selected by bit mask `i` in `generate_subsets`: for each bit
`j` of `i` that is set, include `ids[j]`, in increasing `j` order. -/
def subsetOfMask (ids : List String) (mask : ℕ) : List String :=
  ((List.range ids.length).filter (fun j => mask.testBit j)).map
    (fun j => ids.getD j "")

/-- `generate_subsets` (`subset_generator.h`): all non-empty subsets via
binary counting, masks `1 .. 2^n − 1`. -/
def generate_subsets (td : TransactionData) (type : SubsetType) :
    List (List String) :=
  match type with
  | SubsetType.INPUTS =>
    (List.range' 1 (2 ^ td.input_ids.length - 1)).map (subsetOfMask td.input_ids)
  | SubsetType.OUTPUTS =>
    (List.range' 1 (2 ^ td.output_ids.length - 1)).map (subsetOfMask td.output_ids)

/-- One CSV row of `find_valid_combinations` (`subset_analyzer.h`). -/
structure CombinationRow where
  combination_id : ℕ
  input_subset : List String
  input_value : ℚ
  output_subset : List String
  output_value : ℚ
  difference : ℚ
deriving DecidableEq

/-- The accepted `(A, B)` pairs of `find_valid_combinations`, in loop order
(outer loop over input subsets, inner loop over output subsets). -/
def acceptedPairs (td : TransactionData)
    (input_subsets output_subsets : List (List String)) :
    List (List String × List String) :=
  input_subsets.flatMap (fun a =>
    (output_subsets.filter (fun b =>
      decide (calculate_subset_value td b SubsetType.OUTPUTS ≤
        calculate_subset_value td a SubsetType.INPUTS))).map (fun b => (a, b)))

/-- `find_valid_combinations` (`subset_analyzer.h`): `valid_count` is
incremented on each accepted pair and used as the row's `Combination_ID`, so
row `r` (0-based) carries id `r + 1`; the returned number is the final count. -/
def find_valid_combinations (td : TransactionData)
    (input_subsets output_subsets : List (List String)) :
    ℕ × List CombinationRow :=
  ((acceptedPairs td input_subsets output_subsets).length,
   ((List.range (acceptedPairs td input_subsets output_subsets).length).zip
      (acceptedPairs td input_subsets output_subsets)).map
     (fun p => ⟨p.1 + 1, p.2.1,
       calculate_subset_value td p.2.1 SubsetType.INPUTS, p.2.2,
       calculate_subset_value td p.2.2 SubsetType.OUTPUTS,
       calculate_subset_value td p.2.1 SubsetType.INPUTS -
         calculate_subset_value td p.2.2 SubsetType.OUTPUTS⟩))

/-- The overload of `find_valid_combinations` that generates the subsets
internally. -/
def find_valid_combinations_default (td : TransactionData) : ℕ × List CombinationRow :=
  find_valid_combinations td (generate_subsets td SubsetType.INPUTS)
    (generate_subsets td SubsetType.OUTPUTS)

theorem subsetOfMask_cons (x : String) (rest : List String) (mask : ℕ) :
    subsetOfMask (x :: rest) mask =
      (if mask.testBit 0 then [x] else []) ++ subsetOfMask rest (mask / 2) := by
  rw [subsetOfMask, List.length_cons, List.range_succ_eq_map, List.filter_cons]
  have hfilter : List.filter (fun j => mask.testBit j)
      (List.map Nat.succ (List.range rest.length)) =
      List.map Nat.succ
        (List.filter (fun j => (mask / 2).testBit j) (List.range rest.length)) := by
    rw [List.filter_map]
    congr 1
    apply List.filter_congr
    intro j _
    simp [Function.comp, Nat.testBit_succ]
  have htail : (List.map Nat.succ
      (List.filter (fun j => (mask / 2).testBit j) (List.range rest.length))).map
        (fun j => (x :: rest).getD j "") = subsetOfMask rest (mask / 2) := by
    rw [List.map_map, subsetOfMask]
    apply List.map_congr_left
    intro j _
    simp [Function.comp, List.getD_cons_succ]
  by_cases hbit : mask.testBit 0 = true
  · rw [if_pos hbit, if_pos hbit, List.map_cons, hfilter, htail]
    simp
  · rw [if_neg hbit, if_neg hbit, List.nil_append, hfilter, htail]

theorem subsetOfMask_sublist : ∀ (ids : List String) (mask : ℕ),
    (subsetOfMask ids mask).Sublist ids
  | [], mask => by simp [subsetOfMask]
  | x :: rest, mask => by
    rw [subsetOfMask_cons]
    by_cases hbit : mask.testBit 0 = true
    · rw [if_pos hbit]
      exact (subsetOfMask_sublist rest (mask / 2)).cons₂ x
    · rw [if_neg hbit, List.nil_append]
      exact (subsetOfMask_sublist rest (mask / 2)).cons x

theorem subsetOfMask_ne_nil : ∀ (ids : List String) (mask : ℕ),
    mask ≠ 0 → mask < 2 ^ ids.length → subsetOfMask ids mask ≠ []
  | [], mask, h0, hlt => by
    simp only [List.length_nil, pow_zero] at hlt
    omega
  | x :: rest, mask, h0, hlt => by
    rw [subsetOfMask_cons]
    by_cases hbit : mask.testBit 0 = true
    · simp [hbit]
    · rw [if_neg hbit, List.nil_append]
      have hmod : mask % 2 = 0 := by
        rw [Nat.testBit_zero] at hbit
        simp at hbit
        omega
      have hhalf0 : mask / 2 ≠ 0 := by omega
      have hhalflt : mask / 2 < 2 ^ rest.length := by
        rw [List.length_cons, pow_succ] at hlt
        omega
      exact subsetOfMask_ne_nil rest (mask / 2) hhalf0 hhalflt

theorem subsetOfMask_injOn :
    ∀ (ids : List String), ids.Nodup →
      ∀ (mask mask' : ℕ), mask < 2 ^ ids.length → mask' < 2 ^ ids.length →
        subsetOfMask ids mask = subsetOfMask ids mask' → mask = mask'
  | [], _, mask, mask', hm, hm', _ => by
    simp only [List.length_nil, pow_zero] at hm hm'
    omega
  | x :: rest, hnd, mask, mask', hm, hm', heq => by
    rw [List.nodup_cons] at hnd
    rw [subsetOfMask_cons, subsetOfMask_cons] at heq
    have hmh : mask / 2 < 2 ^ rest.length := by
      rw [List.length_cons, pow_succ] at hm
      omega
    have hmh' : mask' / 2 < 2 ^ rest.length := by
      rw [List.length_cons, pow_succ] at hm'
      omega
    by_cases b1 : mask.testBit 0 = true <;> by_cases b2 : mask'.testBit 0 = true
    · rw [if_pos b1, if_pos b2] at heq
      simp only [List.cons_append, List.nil_append, List.cons.injEq] at heq
      have htails := subsetOfMask_injOn rest hnd.2 (mask / 2) (mask' / 2) hmh hmh' heq.2
      rw [Nat.testBit_zero] at b1 b2
      simp at b1 b2
      omega
    · rw [if_pos b1, if_neg b2, List.nil_append] at heq
      exfalso
      have hx : x ∈ subsetOfMask rest (mask' / 2) := by
        rw [← heq]
        simp
      exact hnd.1 (List.Sublist.mem hx (subsetOfMask_sublist rest (mask' / 2)))
    · rw [if_neg b1, if_pos b2, List.nil_append] at heq
      exfalso
      have hx : x ∈ subsetOfMask rest (mask / 2) := by
        rw [heq]
        simp
      exact hnd.1 (List.Sublist.mem hx (subsetOfMask_sublist rest (mask / 2)))
    · rw [if_neg b1, if_neg b2, List.nil_append, List.nil_append] at heq
      have htails := subsetOfMask_injOn rest hnd.2 (mask / 2) (mask' / 2) hmh hmh' heq
      rw [Nat.testBit_zero] at b1 b2
      simp at b1 b2
      omega

theorem sublist_eq_subsetOfMask {s ids : List String} (h : s.Sublist ids) :
    ∃ mask, mask < 2 ^ ids.length ∧ subsetOfMask ids mask = s ∧
      (s ≠ [] → 1 ≤ mask) := by
  induction h with
  | slnil =>
    refine ⟨0, by simp, by simp [subsetOfMask], fun h => absurd rfl h⟩
  | @cons l₁ l₂ a h ih =>
    obtain ⟨m, hm, hs, hne⟩ := ih
    have hb : (2 * m).testBit 0 = false := by
      rw [Nat.testBit_zero]
      apply decide_eq_false
      omega
    have hdiv : 2 * m / 2 = m := by omega
    refine ⟨2 * m, ?_, ?_, ?_⟩
    · rw [List.length_cons, pow_succ]
      omega
    · rw [subsetOfMask_cons, if_neg (by rw [hb]; exact Bool.false_ne_true),
        List.nil_append, hdiv, hs]
    · intro hsne
      have := hne hsne
      omega
  | @cons₂ l₁ l₂ a h ih =>
    obtain ⟨m, hm, hs, _⟩ := ih
    have hb : (2 * m + 1).testBit 0 = true := by
      rw [Nat.testBit_zero]
      apply decide_eq_true
      omega
    have hdiv : (2 * m + 1) / 2 = m := by omega
    refine ⟨2 * m + 1, ?_, ?_, ?_⟩
    · rw [List.length_cons, pow_succ]
      omega
    · rw [subsetOfMask_cons, if_pos hb, hdiv, hs]
      rfl
    · intro
      omega

/-- The mask-enumerated subset list contains exactly the non-empty sublists of
`ids`, each exactly once, and has length `2^n − 1`. -/
theorem maskedSubsets_spec (ids : List String) (hnd : ids.Nodup) :
    ((List.range' 1 (2 ^ ids.length - 1)).map (subsetOfMask ids)).length =
      2 ^ ids.length - 1 ∧
    ((List.range' 1 (2 ^ ids.length - 1)).map (subsetOfMask ids)).Nodup ∧
    (∀ s, s ∈ (List.range' 1 (2 ^ ids.length - 1)).map (subsetOfMask ids) ↔
      (s ≠ [] ∧ s.Sublist ids)) := by
  have hone : 1 ≤ 2 ^ ids.length := Nat.one_le_two_pow
  have hmem : ∀ m : ℕ, m ∈ List.range' 1 (2 ^ ids.length - 1) ↔
      (1 ≤ m ∧ m < 2 ^ ids.length) := by
    intro m
    rw [List.mem_range'_1]
    omega
  refine ⟨by simp, ?_, ?_⟩
  · apply List.Nodup.map_on
    · intro m hm m' hm' heq
      exact subsetOfMask_injOn ids hnd m m' ((hmem m).mp hm).2 ((hmem m').mp hm').2 heq
    · exact List.nodup_range' 1 _
  · intro s
    rw [List.mem_map]
    constructor
    · rintro ⟨m, hm, rfl⟩
      obtain ⟨h1, h2⟩ := (hmem m).mp hm
      exact ⟨subsetOfMask_ne_nil ids m (by omega) h2, subsetOfMask_sublist ids m⟩
    · rintro ⟨hne, hsub⟩
      obtain ⟨m, hlt, hs, h1⟩ := sublist_eq_subsetOfMask hsub
      exact ⟨m, (hmem m).mpr ⟨h1 hne, hlt⟩, hs⟩

theorem acceptedPairs_eq_filter_product (td : TransactionData) :
    ∀ (input_subsets output_subsets : List (List String)),
      acceptedPairs td input_subsets output_subsets =
        (input_subsets ×ˢ output_subsets).filter
          (fun p => decide (calculate_subset_value td p.2 SubsetType.OUTPUTS ≤
            calculate_subset_value td p.1 SubsetType.INPUTS))
  | [], out_subsets => by
    rw [acceptedPairs, List.nil_product]
    rfl
  | a :: rest, out_subsets => by
    rw [acceptedPairs, List.flatMap_cons, List.product_cons, List.filter_append]
    congr 1
    · rw [List.filter_map]
      rfl
    · rw [← acceptedPairs]
      exact acceptedPairs_eq_filter_product td rest out_subsets

theorem find_valid_combinations_ids (td : TransactionData)
    (input_subsets output_subsets : List (List String)) :
    ((find_valid_combinations td input_subsets output_subsets).2.map
      CombinationRow.combination_id) =
      List.range' 1 (find_valid_combinations td input_subsets output_subsets).1 := by
  rw [find_valid_combinations, List.map_map]
  have h2 : List.map Prod.fst
      ((List.range (acceptedPairs td input_subsets output_subsets).length).zip
        (acceptedPairs td input_subsets output_subsets)) =
      List.range (acceptedPairs td input_subsets output_subsets).length :=
    List.map_fst_zip _ _ (by rw [List.length_range])
  have h3 : (CombinationRow.combination_id ∘ fun p : ℕ × (List String × List String) =>
      (⟨p.1 + 1, p.2.1,
        calculate_subset_value td p.2.1 SubsetType.INPUTS, p.2.2,
        calculate_subset_value td p.2.2 SubsetType.OUTPUTS,
        calculate_subset_value td p.2.1 SubsetType.INPUTS -
          calculate_subset_value td p.2.2 SubsetType.OUTPUTS⟩ : CombinationRow)) =
      (fun x : ℕ => x + 1) ∘ Prod.fst := rfl
  rw [h3, ← List.map_map, h2, List.range'_eq_map_range]
  apply List.map_congr_left
  intro x _
  omega

/-- C8: subset-pairs mode.  `generate_subsets` enumerates exactly the
`2^n − 1` (resp. `2^m − 1`) non-empty subsets of the inputs (resp. outputs),
each exactly once; a pair `(A, B)` is accepted iff `sum(B) ≤ sum(A)`; the
returned count is the number of accepted pairs of the
`(2^n − 1)·(2^m − 1)`-element cross product; and the `Combination_ID`s are
`1, 2, …, count` in enumeration order. -/
theorem find_valid_combinations_correct (td : TransactionData)
    (hni : td.input_ids.Nodup) (hno : td.output_ids.Nodup) :
    (generate_subsets td SubsetType.INPUTS).length = 2 ^ td.input_ids.length - 1 ∧
    (generate_subsets td SubsetType.OUTPUTS).length = 2 ^ td.output_ids.length - 1 ∧
    (generate_subsets td SubsetType.INPUTS).Nodup ∧
    (generate_subsets td SubsetType.OUTPUTS).Nodup ∧
    (∀ s, s ∈ generate_subsets td SubsetType.INPUTS ↔
      (s ≠ [] ∧ s.Sublist td.input_ids)) ∧
    (∀ s, s ∈ generate_subsets td SubsetType.OUTPUTS ↔
      (s ≠ [] ∧ s.Sublist td.output_ids)) ∧
    ((generate_subsets td SubsetType.INPUTS) ×ˢ
        (generate_subsets td SubsetType.OUTPUTS)).length =
      (2 ^ td.input_ids.length - 1) * (2 ^ td.output_ids.length - 1) ∧
    (find_valid_combinations_default td).1 =
      (((generate_subsets td SubsetType.INPUTS) ×ˢ
          (generate_subsets td SubsetType.OUTPUTS)).filter
        (fun p => decide (calculate_subset_value td p.2 SubsetType.OUTPUTS ≤
          calculate_subset_value td p.1 SubsetType.INPUTS))).length ∧
    ((find_valid_combinations_default td).2.map CombinationRow.combination_id) =
      List.range' 1 (find_valid_combinations_default td).1 := by
  obtain ⟨hilen, hinodup, himem⟩ := maskedSubsets_spec td.input_ids hni
  obtain ⟨holen, honodup, homem⟩ := maskedSubsets_spec td.output_ids hno
  refine ⟨hilen, holen, hinodup, honodup, himem, homem, ?_, ?_, ?_⟩
  · rw [List.length_product]
    have h1 : (generate_subsets td SubsetType.INPUTS).length =
        2 ^ td.input_ids.length - 1 := hilen
    have h2 : (generate_subsets td SubsetType.OUTPUTS).length =
        2 ^ td.output_ids.length - 1 := holen
    rw [h1, h2]
  · rw [find_valid_combinations_default, find_valid_combinations,
      acceptedPairs_eq_filter_product]
  · rw [find_valid_combinations_default]
    exact find_valid_combinations_ids td _ _

/-- Witness for `find_valid_combinations_correct`: one input `a ↦ 2`, one
output `b ↦ 1`. -/
theorem find_valid_combinations_correct_witness :
    (generate_subsets ⟨[("a", 2)], [("b", 1)], ["a"], ["b"]⟩ SubsetType.INPUTS).length =
      2 ^ (["a"] : List String).length - 1 ∧
    (generate_subsets ⟨[("a", 2)], [("b", 1)], ["a"], ["b"]⟩ SubsetType.OUTPUTS).length =
      2 ^ (["b"] : List String).length - 1 ∧
    (generate_subsets ⟨[("a", 2)], [("b", 1)], ["a"], ["b"]⟩ SubsetType.INPUTS).Nodup ∧
    (generate_subsets ⟨[("a", 2)], [("b", 1)], ["a"], ["b"]⟩ SubsetType.OUTPUTS).Nodup ∧
    (∀ s, s ∈ generate_subsets ⟨[("a", 2)], [("b", 1)], ["a"], ["b"]⟩ SubsetType.INPUTS ↔
      (s ≠ [] ∧ s.Sublist ["a"])) ∧
    (∀ s, s ∈ generate_subsets ⟨[("a", 2)], [("b", 1)], ["a"], ["b"]⟩ SubsetType.OUTPUTS ↔
      (s ≠ [] ∧ s.Sublist ["b"])) ∧
    ((generate_subsets ⟨[("a", 2)], [("b", 1)], ["a"], ["b"]⟩ SubsetType.INPUTS) ×ˢ
        (generate_subsets ⟨[("a", 2)], [("b", 1)], ["a"], ["b"]⟩ SubsetType.OUTPUTS)).length =
      (2 ^ (["a"] : List String).length - 1) * (2 ^ (["b"] : List String).length - 1) ∧
    (find_valid_combinations_default ⟨[("a", 2)], [("b", 1)], ["a"], ["b"]⟩).1 =
      (((generate_subsets ⟨[("a", 2)], [("b", 1)], ["a"], ["b"]⟩ SubsetType.INPUTS) ×ˢ
          (generate_subsets ⟨[("a", 2)], [("b", 1)], ["a"], ["b"]⟩ SubsetType.OUTPUTS)).filter
        (fun p => decide (calculate_subset_value ⟨[("a", 2)], [("b", 1)], ["a"], ["b"]⟩
            p.2 SubsetType.OUTPUTS ≤
          calculate_subset_value ⟨[("a", 2)], [("b", 1)], ["a"], ["b"]⟩
            p.1 SubsetType.INPUTS))).length ∧
    ((find_valid_combinations_default ⟨[("a", 2)], [("b", 1)], ["a"], ["b"]⟩).2.map
      CombinationRow.combination_id) =
      List.range' 1 (find_valid_combinations_default ⟨[("a", 2)], [("b", 1)], ["a"], ["b"]⟩).1 :=
  find_valid_combinations_correct ⟨[("a", 2)], [("b", 1)], ["a"], ["b"]⟩
    (by decide) (by decide)

/-- C9: amounts at the failing input, evaluated in the exact-rational model of
the comparison logic.  With inputs `{in0 ↦ 0.3}` and outputs
`{out0 ↦ 0.1, out1 ↦ 0.2}`, exact decimal arithmetic gives
`0.1 + 0.2 = 0.3 ≤ 0.3`, so the single-block mapping is accepted by both the
pruner and the checker.  The C++ stores these amounts as IEEE-754 `double`
and compares the sums directly, where `0.1 + 0.2 > 0.3`, rejecting this
mapping — exactly the false pruning decision that the claim's mandated
integer smallest-unit representation (or documented ε) rules out. -/
theorem exact_arithmetic_accepts_boundary_mapping :
    is_valid_mapping
        ⟨[("in0", 0.3)], [("out0", 0.1), ("out1", 0.2)], ["in0"], ["out0", "out1"]⟩
        [[0]] [[0, 1]] ⟨["in0"]⟩ ⟨["out0", "out1"]⟩ = true ∧
    could_have_valid_mapping
        ⟨[("in0", 0.3)], [("out0", 0.1), ("out1", 0.2)], ["in0"], ["out0", "out1"]⟩
        [[0]] [[0, 1]] ⟨["in0"]⟩ ⟨["out0", "out1"]⟩ = true := by
  have hne : ("out1" == "out0") = false := by decide
  constructor <;>
    norm_num [is_valid_mapping, could_have_valid_mapping, sortDesc, outputGroupValue,
      inputGroupValue, calculate_subset_value, TransactionData.get_output_value,
      TransactionData.get_input_value, ElementMapper.to_string_set,
      List.insertionSort, List.orderedInsert, List.lookup, hne]
